import Mathlib

/-!
Verification of the two logic-bearing components of the personal-website
repository: the table-of-contents builder (`buildToc` in
`src/components/TableOfContents.astro`) and the persisted dark-mode
preference store (`src/stores.ts`, `src/components/DarkModeToggle.svelte`).

The builder is embedded with an explicit heap of nodes (indices play the
role of JavaScript object references), because the source algorithm pushes
children into parent objects through aliased references held by a `Map`.
A lookup miss in the source dereferences `undefined` and throws a
`TypeError`; the embedding returns `Except.error ()` there.
-/

namespace PersonalWebsite

/-- A heading record: `{ depth, text, slug, subheadings }` from
`TableOfContents.astro`.  `subs` holds heap indices of the children
(object references in the source). -/
structure Node where
  depth : Int
  text : String
  slug : String
  subs : List Nat
deriving Repr, DecidableEq

/-- The self-heading sentinel title skipped by `buildToc`. -/
def sentinel : String := "Table of Contents"

/-- `true` when the heading is not the sentinel, i.e. it survives the
`if (h.text === "Table of Contents") return;` guard. -/
def keep (h : Node) : Bool := h.text != sentinel

/-- `Map.get` for the `parentHeadings` map: the map is modelled as a list of
`(depth, heap index)` entries with the most recent `set` at the head. -/
def lookupDepth : List (Int × Nat) → Int → Option Nat
  | [], _ => none
  | (d, id) :: rest, k => if d = k then some id else lookupDepth rest k

/-- `parent.subheadings.push(child)`: append `c` to the `subs` of the node at
heap index `p`. -/
def pushChild (nodes : List Node) (p c : Nat) : List Node :=
  match nodes[p]? with
  | none => nodes
  | some n => nodes.set p { n with subs := n.subs ++ [c] }

/-- The mutable state of the `headings.forEach` pass: the heap of nodes
(the input records followed by the clones created so far), the `toc`
array of top-level heap indices, and the `parentHeadings` map. -/
structure BuildState where
  nodes : List Node
  toc : List Nat
  parents : List (Int × Nat)
deriving Repr, DecidableEq

/-- One iteration of the `forEach` callback in `buildToc`: skip the
sentinel, clone the heading with empty `subheadings`, record it in
`parentHeadings`, then either push it to `toc` (depth 2) or into the
subheadings of the node recorded at `depth - 1`; a lookup miss there is the
source's thrown `TypeError`. -/
def step (st : BuildState) (h : Node) : Except Unit BuildState :=
  if keep h = false then .ok st
  else
    let id := st.nodes.length
    let heading : Node := ⟨h.depth, h.text, h.slug, []⟩
    let parents := (h.depth, id) :: st.parents
    if h.depth = 2 then
      .ok ⟨st.nodes ++ [heading], st.toc ++ [id], parents⟩
    else
      match lookupDepth parents (h.depth - 1) with
      | none => .error ()
      | some p => .ok ⟨pushChild (st.nodes ++ [heading]) p id, st.toc, parents⟩

/-- Run the `forEach` loop over the remaining headings; a thrown
`TypeError` aborts the whole pass. -/
def runBuild : BuildState → List Node → Except Unit BuildState
  | st, [] => .ok st
  | st, h :: hs =>
    match step st h with
    | .error e => .error e
    | .ok st' => runBuild st' hs

/-- `buildToc(headings)` at the heap level: the initial heap holds exactly
the input records, and `toc`/`parentHeadings` start empty. -/
def buildTocState (headings : List Node) : Except Unit BuildState :=
  runBuild ⟨headings, [], []⟩ headings

/-- The value-level heading tree produced by `buildToc` (what the template
consumes): depth, text, slug, and fully materialised subheadings. -/
inductive Heading where
  | mk (depth : Int) (text : String) (slug : String) (subheadings : List Heading)
deriving Repr

/-- Dereference a heap index into a value-level tree.  The fuel only
serves termination; `buildToc` only ever creates child indices larger than
their parent's, so `nodes.length` fuel is always enough. -/
def resolveNode (nodes : List Node) : Nat → Nat → Heading
  | 0, _ => .mk 0 "" "" []
  | fuel + 1, id =>
    match nodes[id]? with
    | none => .mk 0 "" "" []
    | some n => .mk n.depth n.text n.slug (n.subs.map (resolveNode nodes fuel))

/-- `buildToc(headings)` as the returned tree of headings. -/
def buildToc (headings : List Node) : Except Unit (List Heading) :=
  match buildTocState headings with
  | .error e => .error e
  | .ok st => .ok (st.toc.map (resolveNode st.nodes st.nodes.length))

/-- All heading texts occurring anywhere in a resolved tree. -/
def textsOf : Heading → List String
  | .mk _ t _ subheadings => t :: (subheadings.attach.map (fun c => textsOf c.1)).flatten
decreasing_by
  simp only [Heading.mk.sizeOf_spec]
  have := List.sizeOf_lt_of_mem c.2
  omega

/-! ### Index-level description of the build

The following functions describe, purely in terms of the input list, the
state the `forEach` pass has after its first `i` iterations: which input
positions survive the sentinel guard, which heap index each surviving
position is cloned to, which clone the `parentHeadings` map holds at each
depth, and which children each clone has accumulated. -/

/-- Position `j` of the input holds a non-sentinel heading. -/
def isKeep (inp : List Node) (j : Nat) : Bool :=
  match inp[j]? with
  | some h => keep h
  | none => false

/-- Depth of the heading at input position `j` (0 out of range). -/
def depthAt (inp : List Node) (j : Nat) : Int :=
  match inp[j]? with
  | some h => h.depth
  | none => 0

/-- Number of non-sentinel headings among the first `i` input positions. -/
def keepCount (inp : List Node) : Nat → Nat
  | 0 => 0
  | i + 1 => keepCount inp i + (if isKeep inp i then 1 else 0)

/-- Heap index of the clone created for input position `i`: the clones are
appended after the `inp.length` input records, one per surviving position. -/
def cloneId (inp : List Node) (i : Nat) : Nat := inp.length + keepCount inp i

/-- The last position `< i` holding a non-sentinel heading of depth `d`:
the input position whose clone the `parentHeadings` map stores at key `d`
after `i` iterations. -/
def lastAt (inp : List Node) : Nat → Int → Option Nat
  | 0, _ => none
  | i + 1, d => if isKeep inp i = true ∧ depthAt inp i = d then some i else lastAt inp i d

/-- The position of the nearest preceding non-sentinel heading of depth
`depth - 1`: where `buildToc`'s `parentHeadings.get(heading.depth - 1)`
points when processing position `k`. -/
def parentOf (inp : List Node) (k : Nat) : Option Nat :=
  lastAt inp k (depthAt inp k - 1)

/-- Position `k` holds a non-sentinel heading of depth 2 (goes to `toc`). -/
def isTopB (inp : List Node) (j : Nat) : Bool :=
  isKeep inp j && decide (depthAt inp j = 2)

/-- Position `k` holds a non-sentinel heading of depth ≠ 2 (takes the
`parentHeadings.get(depth - 1)` branch). -/
def isChildB (inp : List Node) (j : Nat) : Bool :=
  isKeep inp j && decide (depthAt inp j ≠ 2)

/-- The heading at position `k` gets pushed into the subheadings of the
clone of position `j`. -/
def attaches (inp : List Node) (k j : Nat) : Bool :=
  isChildB inp k && decide (parentOf inp k = some j)

/-- Heap indices accumulated in the subheadings of the clone of position
`j` after `i` iterations, in push order. -/
def childIds (inp : List Node) (i j : Nat) : List Nat :=
  ((List.range i).filter (fun k => attaches inp k j)).map (cloneId inp)

/-- The clone of input position `j` as it stands after `i` iterations. -/
def cloneAt (inp : List Node) (i j : Nat) : Node :=
  match inp[j]? with
  | some h => ⟨h.depth, h.text, h.slug, childIds inp i j⟩
  | none => ⟨0, "", "", []⟩

/-- The input positions surviving the sentinel guard among the first `i`. -/
def keepPos (inp : List Node) (i : Nat) : List Nat :=
  (List.range i).filter (isKeep inp)

/-- The heap after `i` iterations: the untouched input records followed by
the clones created so far. -/
def specNodes (inp : List Node) (i : Nat) : List Node :=
  inp ++ (keepPos inp i).map (cloneAt inp i)

/-- The `toc` array after `i` iterations: the clones of the depth-2
non-sentinel positions, in input order. -/
def specToc (inp : List Node) (i : Nat) : List Nat :=
  ((List.range i).filter (isTopB inp)).map (cloneId inp)

/-- The `parentHeadings` map after `i` iterations. -/
def specParents (inp : List Node) : Nat → List (Int × Nat)
  | 0 => []
  | i + 1 =>
    if isKeep inp i = true then (depthAt inp i, cloneId inp i) :: specParents inp i
    else specParents inp i

/-- The whole build state after `i` iterations. -/
def specState (inp : List Node) (i : Nat) : BuildState :=
  ⟨specNodes inp i, specToc inp i, specParents inp i⟩

/-- The validity premise exactly as the claims state it: every heading of
depth > 2 is preceded by some heading of depth − 1 (no sentinel proviso,
no constraint on depths ≤ 2). -/
def ClaimValid (inp : List Node) : Prop :=
  ∀ (k : Nat) (h : Node), inp[k]? = some h → 2 < h.depth →
    ∃ (j : Nat) (g : Node), j < k ∧ inp[j]? = some g ∧ g.depth = h.depth - 1

/-- The amended validity premise: every non-sentinel heading has depth ≥ 2,
and every non-sentinel heading of depth > 2 has a nearest preceding
non-sentinel heading of depth − 1 (so the `parentHeadings` lookup hits). -/
def validB (inp : List Node) : Bool :=
  (List.range inp.length).all fun k =>
    !(isKeep inp k) || (decide (2 ≤ depthAt inp k) &&
      (!(isChildB inp k) || (parentOf inp k).isSome))

/-- Total number of occurrences of heap index `c` in the subheadings of
the output region of the heap (the clones, i.e. the nodes of the returned
tree; the first `n0` heap entries are the input records). -/
def subsCountFrom (st : BuildState) (n0 : Nat) (c : Nat) : Nat :=
  ((st.nodes.drop n0).map (fun n => n.subs.count c)).sum

/-- `m` carries the same heading data as `h` (clone of the same record). -/
def sameHeading (h m : Node) : Bool :=
  m.depth == h.depth && m.text == h.text && m.slug == h.slug

/-- A node with the heading data of `h` occurs in some subheadings
sequence of the built state. -/
def occursInSubs (st : BuildState) (h : Node) : Bool :=
  st.nodes.any fun n => n.subs.any fun c =>
    match st.nodes[c]? with
    | some m => sameHeading h m
    | none => false

/-- Projection of the heading data carried by a node (everything except
the subheadings). -/
def projT (n : Node) : Int × String × String := (n.depth, n.text, n.slug)

/-- Projection of the heading data carried by a resolved tree node. -/
def headProj : Heading → Int × String × String
  | .mk d t s _ => (d, t, s)

/-- The input record at position `j` (dummy out of range). -/
def nodeAt (inp : List Node) (j : Nat) : Node := (inp[j]?).getD ⟨0, "", "", []⟩

/-- Minimum of a list of integers. -/
def minDepth : List Int → Option Int
  | [] => none
  | d :: ds =>
    match minDepth ds with
    | none => some d
    | some m => some (min d m)

/-! ### The dark-mode preference store

`src/stores.ts` declares
`darkMode : Writable<boolean | undefined> = localStorageStore('darkMode', undefined)`.
The implementation of `localStorageStore` lives in
`src/utilities/LocalStorageStore`, which is not among the provided sources,
so its storage behaviour is modelled from the specification.  The in-memory
value is an `Option Bool` (`none` is the unset/`undefined` state) and the
storage slot is an `Option String` (`none` when the key is absent). -/

/-- Modelled from the spec: serialization used by the missing
`localStorageStore` when `Set(value)` writes the slot ("write the
serialized value to the storage slot under `key`", JSON-encode of a
boolean). -/
def serializeBool (b : Bool) : String := if b then "true" else "false"

/-- Modelled from the spec: parse-on-read of the missing
`localStorageStore` ("parse stored text as the structured value (e.g.,
JSON-decode)"); `none` signals a parse failure. -/
def parseBool (s : String) : Option Bool :=
  if s = "true" then some true
  else if s = "false" then some false
  else none

/-- Modelled from the spec: `Initialize(key, default)` of the missing
`localStorageStore` — read the slot; if absent use the default; if present
but unparseable fall back to the default.  Total, hence it never throws. -/
def initStore (slot : Option String) (dflt : Option Bool) : Option Bool :=
  match slot with
  | none => dflt
  | some s =>
    match parseBool s with
    | some b => some b
    | none => dflt

/-- Modelled from the spec: `Set(value)` of the missing
`localStorageStore` — the resulting in-memory value and the resulting
storage slot (the serialized value is persisted immediately). -/
def setStore (value : Bool) : Option Bool × Option String :=
  (some value, some (serializeBool value))

/-- JavaScript truthiness of a `boolean | undefined` value (`undefined` is
falsy). -/
def jsTruthy : Option Bool → Bool
  | some b => b
  | none => false

/-- `toggleDarkMode` from `DarkModeToggle.svelte`: `$darkMode = !$darkMode`
over the store value `boolean | undefined`. -/
def toggleDarkMode (v : Option Bool) : Option Bool := some (!(jsTruthy v))

/-! ### Helper lemmas about the index-level description -/

theorem textsOf_mk (d : Int) (t s : String) (subheadings : List Heading) :
    textsOf (.mk d t s subheadings) = t :: (subheadings.map textsOf).flatten := by
  rw [textsOf]
  congr 1
  rw [List.map_attach]
  simp

theorem lastAt_lt {inp : List Node} {i : Nat} {d : Int} {j : Nat}
    (h : lastAt inp i d = some j) : j < i := by
  induction i with
  | zero => simp [lastAt] at h
  | succ i ih =>
    rw [lastAt] at h
    split at h
    · cases h
      omega
    · exact Nat.lt_succ_of_lt (ih h)

theorem lastAt_keep {inp : List Node} {i : Nat} {d : Int} {j : Nat}
    (h : lastAt inp i d = some j) : isKeep inp j = true ∧ depthAt inp j = d := by
  induction i with
  | zero => simp [lastAt] at h
  | succ i ih =>
    rw [lastAt] at h
    split at h
    · cases h
      assumption
    · exact ih h

theorem lastAt_isSome {inp : List Node} {i j : Nat} {d : Int}
    (hj : j < i) (hk : isKeep inp j = true) (hd : depthAt inp j = d) :
    (lastAt inp i d).isSome = true := by
  induction i with
  | zero => omega
  | succ i ih =>
    rw [lastAt]
    by_cases hc : isKeep inp i = true ∧ depthAt inp i = d
    · rw [if_pos hc]
      rfl
    · rw [if_neg hc]
      rcases Nat.lt_succ_iff_lt_or_eq.mp hj with h | h
      · exact ih h
      · subst h
        exact absurd ⟨hk, hd⟩ hc

theorem keepCount_mono (inp : List Node) {i j : Nat} (h : i ≤ j) :
    keepCount inp i ≤ keepCount inp j := by
  induction j with
  | zero =>
    have hi : i = 0 := by omega
    simp [hi]
  | succ j ih =>
    rcases Nat.le_succ_iff.mp h with h' | h'
    · refine le_trans (ih h') ?_
      rw [keepCount]
      split <;> omega
    · subst h'
      exact le_refl _

theorem keepCount_lt {inp : List Node} {j i : Nat}
    (hk : isKeep inp j = true) (h : j < i) : keepCount inp j < keepCount inp i := by
  have h1 : keepCount inp (j + 1) ≤ keepCount inp i := keepCount_mono inp h
  simp only [keepCount, hk, if_true] at h1
  omega

theorem cloneId_inj {inp : List Node} {j k : Nat}
    (hj : isKeep inp j = true) (hk : isKeep inp k = true)
    (h : cloneId inp j = cloneId inp k) : j = k := by
  by_contra hne
  rcases Nat.lt_or_ge j k with hlt | hge
  · have := keepCount_lt hj hlt
    simp [cloneId] at h
    omega
  · have : k < j := by omega
    have := keepCount_lt hk this
    simp [cloneId] at h
    omega

theorem keepCount_eq_length (inp : List Node) (i : Nat) :
    keepCount inp i = (keepPos inp i).length := by
  induction i with
  | zero => simp [keepCount, keepPos]
  | succ i ih =>
    rw [keepCount, keepPos, List.range_succ, List.filter_append, List.length_append, ← keepPos, ← ih]
    by_cases h : isKeep inp i = true <;> simp [h]

theorem keepPos_succ (inp : List Node) (i : Nat) :
    keepPos inp (i + 1) = keepPos inp i ++ if isKeep inp i then [i] else [] := by
  rw [keepPos, List.range_succ, List.filter_append, ← keepPos]
  by_cases h : isKeep inp i = true <;> simp [h]

theorem keepPos_mem {inp : List Node} {i j : Nat} :
    j ∈ keepPos inp i ↔ j < i ∧ isKeep inp j = true := by
  simp [keepPos, List.mem_filter, List.mem_range]

theorem keepPos_nodup (inp : List Node) (i : Nat) : (keepPos inp i).Nodup :=
  (List.nodup_range i).filter _

theorem keepPos_getElem? {inp : List Node} {p i : Nat}
    (hp : isKeep inp p = true) (h : p < i) :
    (keepPos inp i)[keepCount inp p]? = some p := by
  induction i with
  | zero => omega
  | succ i ih =>
    rw [keepPos_succ]
    rcases Nat.lt_succ_iff_lt_or_eq.mp h with h' | h'
    · rw [List.getElem?_append_left]
      · exact ih h'
      · rw [← keepCount_eq_length]
        exact keepCount_lt hp h'
    · subst h'
      rw [List.getElem?_append_right (by rw [← keepCount_eq_length])]
      rw [← keepCount_eq_length, Nat.sub_self, hp]
      rfl

theorem keepPos_getElem?_inv {inp : List Node} {i m j : Nat}
    (h : (keepPos inp i)[m]? = some j) :
    j < i ∧ isKeep inp j = true ∧ m = keepCount inp j := by
  induction i with
  | zero => simp [keepPos] at h
  | succ i ih =>
    rw [keepPos_succ] at h
    rcases Nat.lt_or_ge m (keepPos inp i).length with hm | hm
    · rw [List.getElem?_append_left hm] at h
      obtain ⟨h1, h2, h3⟩ := ih h
      exact ⟨Nat.lt_succ_of_lt h1, h2, h3⟩
    · rw [List.getElem?_append_right hm] at h
      by_cases hk : isKeep inp i = true
      · simp only [hk, if_true] at h
        have h0 : m - (keepPos inp i).length = 0 := by
          by_contra h0
          rw [List.getElem?_eq_none (by simp; omega)] at h
          cases h
        rw [h0] at h
        simp at h
        subst h
        refine ⟨Nat.lt_succ_self i, hk, ?_⟩
        rw [keepCount_eq_length]
        omega
      · simp only [hk] at h
        simp at h

theorem attaches_lt {inp : List Node} {k j : Nat}
    (h : attaches inp k j = true) : j < k := by
  rw [attaches, Bool.and_eq_true, decide_eq_true_iff] at h
  exact lastAt_lt h.2

theorem childIds_succ (inp : List Node) (i j : Nat) :
    childIds inp (i + 1) j =
      childIds inp i j ++ if attaches inp i j then [cloneId inp i] else [] := by
  rw [childIds, List.range_succ, List.filter_append, List.map_append, ← childIds]
  by_cases h : attaches inp i j = true <;> simp [h]

theorem childIds_ge (inp : List Node) {i j : Nat} (h : i ≤ j + 1) :
    childIds inp i j = [] := by
  rw [childIds, List.map_eq_nil_iff, List.filter_eq_nil_iff]
  intro k hk
  rw [List.mem_range] at hk
  intro ha
  have := attaches_lt ha
  omega

theorem cloneAt_stable {inp : List Node} {i j : Nat}
    (h : attaches inp i j = false) : cloneAt inp (i + 1) j = cloneAt inp i j := by
  rw [cloneAt, cloneAt, childIds_succ, h]
  simp

theorem specNodes_length (inp : List Node) (i : Nat) :
    (specNodes inp i).length = inp.length + keepCount inp i := by
  rw [specNodes, List.length_append, List.length_map, keepCount_eq_length]

theorem specNodes_getElem?_lo {inp : List Node} {i j : Nat} (h : j < inp.length) :
    (specNodes inp i)[j]? = inp[j]? := by
  rw [specNodes, List.getElem?_append_left h]

theorem specNodes_getElem?_clone {inp : List Node} {i p : Nat}
    (hp : isKeep inp p = true) (h : p < i) :
    (specNodes inp i)[cloneId inp p]? = some (cloneAt inp i p) := by
  rw [specNodes, List.getElem?_append_right (by rw [cloneId]; omega)]
  rw [cloneId, Nat.add_sub_cancel_left, List.getElem?_map, keepPos_getElem? hp h]
  rfl

theorem lookup_specParents (inp : List Node) :
    ∀ i d, lookupDepth (specParents inp i) d = (lastAt inp i d).map (cloneId inp) := by
  intro i
  induction i with
  | zero => intro d; rfl
  | succ i ih =>
    intro d
    rw [specParents, lastAt]
    by_cases hk : isKeep inp i = true
    · rw [if_pos hk, lookupDepth]
      by_cases hd : depthAt inp i = d
      · rw [if_pos hd, if_pos ⟨hk, hd⟩]
        rfl
      · rw [if_neg hd, if_neg (by tauto), ih]
    · rw [if_neg hk, if_neg (by tauto), ih]

theorem map_update {l : List Nat} {f g : Nat → Node} {m p : Nat}
    (hn : l.Nodup) (hp : l[m]? = some p)
    (hfg : ∀ j ∈ l, j ≠ p → g j = f j) :
    l.map g = (l.map f).set m (g p) := by
  induction l generalizing m with
  | nil => simp at hp
  | cons x xs ih =>
    rcases m with _ | m
    · simp only [List.getElem?_cons_zero, Option.some_inj] at hp
      subst hp
      simp only [List.map_cons, List.set_cons_zero]
      congr 1
      apply List.map_congr_left
      intro a ha
      exact hfg a (List.mem_cons_of_mem _ ha) (fun hax => (List.nodup_cons.mp hn).1 (hax ▸ ha))
    · simp only [List.getElem?_cons_succ] at hp
      have hpx : x ≠ p := by
        intro hxp
        exact (List.nodup_cons.mp hn).1 (hxp ▸ List.getElem?_mem hp)
      simp only [List.map_cons, List.set_cons_succ]
      rw [hfg x (List.mem_cons_self x xs) hpx]
      congr 1
      exact ih (List.nodup_cons.mp hn).2 hp (fun j hj => hfg j (List.mem_cons_of_mem _ hj))

theorem minDepth_isSome (d : Int) (ds : List Int) : (minDepth (d :: ds)).isSome = true := by
  rw [minDepth]
  rcases minDepth ds with _ | m <;> rfl

theorem minDepth_spec : ∀ (l : List Int) (m : Int), minDepth l = some m →
    m ∈ l ∧ ∀ x ∈ l, m ≤ x := by
  intro l
  induction l with
  | nil => intro m hm; cases hm
  | cons d ds ih =>
    intro m hm
    rw [minDepth] at hm
    rcases hmd : minDepth ds with _ | m'
    · rw [hmd] at hm
      cases hm
      refine ⟨by simp, ?_⟩
      intro x hx
      rcases List.mem_cons.mp hx with h | h
      · subst h
        exact le_refl _
      · exfalso
        rcases ds with _ | ⟨e, es⟩
        · simp at h
        · have := minDepth_isSome e es
          rw [hmd] at this
          cases this
    · rw [hmd] at hm
      cases hm
      obtain ⟨hmem, hle⟩ := ih m' hmd
      constructor
      · rcases le_total d m' with h | h
        · simp [min_eq_left h]
        · rw [min_eq_right h]
          exact List.mem_cons_of_mem _ hmem
      · intro x hx
        rcases List.mem_cons.mp hx with h | h
        · subst h
          exact min_le_left _ _
        · exact le_trans (min_le_right _ _) (hle x h)

theorem isKeep_of_get {inp : List Node} {i : Nat} {h : Node}
    (hget : inp[i]? = some h) : isKeep inp i = keep h := by
  rw [isKeep, hget]

theorem depthAt_of_get {inp : List Node} {i : Nat} {h : Node}
    (hget : inp[i]? = some h) : depthAt inp i = h.depth := by
  rw [depthAt, hget]

theorem attaches_of_not_child {inp : List Node} {i : Nat}
    (h : isChildB inp i = false) : ∀ j, attaches inp i j = false := by
  intro j
  rw [attaches, h]
  rfl

theorem specToc_succ (inp : List Node) (i : Nat) :
    specToc inp (i + 1) = specToc inp i ++ if isTopB inp i then [cloneId inp i] else [] := by
  rw [specToc, List.range_succ, List.filter_append, List.map_append, ← specToc]
  by_cases h : isTopB inp i = true <;> simp [h]

theorem specNodes_succ_of_not_child {inp : List Node} {i : Nat}
    (hc : isChildB inp i = false) :
    specNodes inp (i + 1) =
      specNodes inp i ++ if isKeep inp i then [cloneAt inp (i + 1) i] else [] := by
  rw [specNodes, specNodes, keepPos_succ]
  by_cases hk : isKeep inp i = true
  · rw [hk]
    simp only [if_true, List.map_append, List.map_cons, List.map_nil, List.append_assoc]
    congr 2
    apply List.map_congr_left
    intro j _
    exact cloneAt_stable (attaches_of_not_child hc j)
  · rw [Bool.not_eq_true] at hk
    rw [hk]
    simp only [Bool.false_eq_true, if_false, List.append_nil]
    congr 1
    apply List.map_congr_left
    intro j _
    exact cloneAt_stable (attaches_of_not_child hc j)

theorem step_spec_skip {st : BuildState} {h : Node} (hk : keep h = false) :
    step st h = .ok st := by
  rw [step, if_pos hk]

theorem specState_succ_skip {inp : List Node} {i : Nat} {h : Node}
    (hget : inp[i]? = some h) (hk : keep h = false) :
    specState inp (i + 1) = specState inp i := by
  have hkeep : isKeep inp i = false := by rw [isKeep_of_get hget, hk]
  have hc : isChildB inp i = false := by rw [isChildB, hkeep]; rfl
  rw [specState, specState]
  congr 1
  · rw [specNodes_succ_of_not_child hc, hkeep]
    simp
  · rw [specToc_succ]
    have : isTopB inp i = false := by rw [isTopB, hkeep]; rfl
    rw [this]
    simp
  · rw [specParents, if_neg (by rw [hkeep]; simp)]

theorem step_spec_top {inp : List Node} {i : Nat} {h : Node}
    (hget : inp[i]? = some h) (hk : keep h = true) (hd : h.depth = 2) :
    step (specState inp i) h = .ok (specState inp (i + 1)) := by
  have hkeep : isKeep inp i = true := by rw [isKeep_of_get hget, hk]
  have hdep : depthAt inp i = 2 := by rw [depthAt_of_get hget, hd]
  have hc : isChildB inp i = false := by
    rw [isChildB, hdep]
    simp
  have hlen : (specNodes inp i).length = cloneId inp i := specNodes_length inp i
  rw [step, if_neg (by rw [hk]; simp), if_pos hd]
  congr 1
  rw [specState, specState]
  congr 1
  · rw [specNodes_succ_of_not_child hc, hkeep, if_pos rfl]
    show specNodes inp i ++ [_] = specNodes inp i ++ [_]
    congr 2
    rw [cloneAt, hget, childIds_ge inp (le_refl _)]
  · rw [specToc_succ]
    have : isTopB inp i = true := by rw [isTopB, hkeep, hdep]; rfl
    rw [this, if_pos rfl]
    show _ ++ [(specNodes inp i).length] = _ ++ [cloneId inp i]
    rw [hlen]
  · rw [specParents, if_pos hkeep, hdep, hd]
    show (2, (specNodes inp i).length) :: _ = (2, cloneId inp i) :: _
    rw [hlen]

theorem isKeep_get {inp : List Node} {p : Nat} (hk : isKeep inp p = true) :
    ∃ g, inp[p]? = some g ∧ keep g = true := by
  rw [isKeep] at hk
  rcases hg : inp[p]? with _ | g
  · rw [hg] at hk
    cases hk
  · rw [hg] at hk
    exact ⟨g, rfl, hk⟩

theorem pushChild_eq {nodes : List Node} {p : Nat} {n : Node} (c : Nat)
    (h : nodes[p]? = some n) :
    pushChild nodes p c = nodes.set p ⟨n.depth, n.text, n.slug, n.subs ++ [c]⟩ := by
  rw [pushChild, h]

theorem pushChild_spec {inp : List Node} {i : Nat} {h : Node} {p : Nat}
    (hget : inp[i]? = some h) (hk : keep h = true) (hd : h.depth ≠ 2)
    (hp : parentOf inp i = some p) :
    pushChild (specNodes inp i ++ [⟨h.depth, h.text, h.slug, []⟩])
        (cloneId inp p) (cloneId inp i) = specNodes inp (i + 1) := by
  have hkeep : isKeep inp i = true := by rw [isKeep_of_get hget, hk]
  have hdep : depthAt inp i = h.depth := depthAt_of_get hget
  have hchild : isChildB inp i = true := by
    rw [isChildB, hkeep, hdep]
    simp [hd]
  have hpi : p < i := lastAt_lt hp
  obtain ⟨hkp, hdp⟩ := lastAt_keep hp
  obtain ⟨g, hg, hkg⟩ := isKeep_get hkp
  have hattach : attaches inp i p = true := by
    rw [attaches, hchild, hp]
    simp
  have hcpi : cloneId inp p < (specNodes inp i).length := by
    rw [specNodes_length, cloneId]
    have := keepCount_lt hkp hpi
    omega
  have hLget : (specNodes inp i ++ [(⟨h.depth, h.text, h.slug, []⟩ : Node)])[cloneId inp p]?
      = some (cloneAt inp i p) := by
    rw [List.getElem?_append_left hcpi]
    exact specNodes_getElem?_clone hkp hpi
  have hca : cloneAt inp i p = ⟨g.depth, g.text, g.slug, childIds inp i p⟩ := by
    rw [cloneAt, hg]
  have hca1 : cloneAt inp (i + 1) p
      = ⟨g.depth, g.text, g.slug, childIds inp i p ++ [cloneId inp i]⟩ := by
    rw [cloneAt, hg, childIds_succ, hattach]
    simp
  have key : (⟨(cloneAt inp i p).depth, (cloneAt inp i p).text, (cloneAt inp i p).slug,
      (cloneAt inp i p).subs ++ [cloneId inp i]⟩ : Node) = cloneAt inp (i + 1) p := by
    rw [hca, hca1]
  rw [pushChild_eq (cloneId inp i) hLget, key]
  have hkc : keepCount inp p < (List.map (cloneAt inp i) (keepPos inp i)).length := by
    rw [List.length_map, ← keepCount_eq_length]
    exact keepCount_lt hkp hpi
  rw [specNodes, List.append_assoc, List.set_append_right _ _ (by rw [cloneId]; omega)]
  rw [cloneId, Nat.add_sub_cancel_left]
  rw [List.set_append_left _ _ hkc]
  rw [specNodes, keepPos_succ, hkeep, if_pos rfl, List.map_append]
  congr 1
  congr 1
  · exact (map_update (keepPos_nodup inp i) (keepPos_getElem? hkp hpi)
      (fun j _ hj => by
        apply cloneAt_stable
        rw [attaches, hp]
        have hd2 : decide (some p = some j) = false := by
          rw [decide_eq_false_iff_not]
          intro hpj
          exact hj (Option.some_inj.mp hpj).symm
        rw [hd2, Bool.and_false])).symm
  · simp only [List.map_cons, List.map_nil]
    rw [cloneAt, hget, childIds_ge inp (le_refl _)]

theorem step_spec_child {inp : List Node} {i : Nat} {h : Node} {p : Nat}
    (hget : inp[i]? = some h) (hk : keep h = true) (hd : h.depth ≠ 2)
    (hp : parentOf inp i = some p) :
    step (specState inp i) h = .ok (specState inp (i + 1)) := by
  have hkeep : isKeep inp i = true := by rw [isKeep_of_get hget, hk]
  have hdep : depthAt inp i = h.depth := depthAt_of_get hget
  have hlen : (specNodes inp i).length = cloneId inp i := specNodes_length inp i
  have hlook : lookupDepth ((h.depth, (specNodes inp i).length) :: specParents inp i)
      (h.depth - 1) = some (cloneId inp p) := by
    rw [lookupDepth, if_neg (by omega), lookup_specParents]
    rw [parentOf, hdep] at hp
    rw [hp]
    rfl
  simp only [step, specState, hk, Bool.true_eq_false, if_false, if_neg hd, hlook]
  rw [hlen, Except.ok.injEq, BuildState.mk.injEq]
  refine ⟨?_, ?_, ?_⟩
  · exact pushChild_spec hget hk hd hp
  · rw [specToc_succ]
    have : isTopB inp i = false := by
      rw [isTopB, hdep]
      simp [hd]
    rw [this]
    simp
  · rw [specParents, if_pos hkeep, hdep]

theorem step_spec_err {inp : List Node} {i : Nat} {h : Node}
    (hget : inp[i]? = some h) (hk : keep h = true) (hd : h.depth ≠ 2)
    (hp : parentOf inp i = none) :
    step (specState inp i) h = .error () := by
  have hdep : depthAt inp i = h.depth := depthAt_of_get hget
  have hlook : lookupDepth ((h.depth, (specNodes inp i).length) :: specParents inp i)
      (h.depth - 1) = none := by
    rw [lookupDepth, if_neg (by omega), lookup_specParents]
    rw [parentOf, hdep] at hp
    rw [hp]
    rfl
  simp only [step, specState, hk, Bool.true_eq_false, if_false, if_neg hd, hlook]

theorem drop_cons_of_getElem? {inp : List Node} {i : Nat} {h : Node}
    (hget : inp[i]? = some h) : inp.drop i = h :: inp.drop (i + 1) := by
  obtain ⟨hlt, he⟩ := List.getElem?_eq_some_iff.mp hget
  rw [List.drop_eq_getElem_cons hlt, he]

theorem isKeep_lt_length {inp : List Node} {k : Nat} (h : isKeep inp k = true) :
    k < inp.length := by
  obtain ⟨g, hg, _⟩ := isKeep_get h
  exact (List.getElem?_eq_some_iff.mp hg).1

theorem isChildB_keep {inp : List Node} {k : Nat} (h : isChildB inp k = true) :
    isKeep inp k = true :=
  (Bool.and_eq_true _ _ |>.mp h).1

theorem isChildB_depth {inp : List Node} {k : Nat} (h : isChildB inp k = true) :
    depthAt inp k ≠ 2 := by
  have := (Bool.and_eq_true _ _ |>.mp h).2
  exact of_decide_eq_true this

theorem specState_zero (inp : List Node) : specState inp 0 = ⟨inp, [], []⟩ := by
  rw [specState, specNodes, specToc, specParents]
  simp [keepPos]

theorem runBuild_ok (inp : List Node) :
    ∀ (m i : Nat), i + m = inp.length →
    (∀ k, i ≤ k → isChildB inp k = true → (parentOf inp k).isSome = true) →
    runBuild (specState inp i) (inp.drop i) = .ok (specState inp inp.length) := by
  intro m
  induction m with
  | zero =>
    intro i hi _
    have hlen : i = inp.length := by omega
    subst hlen
    rw [List.drop_length]
    rfl
  | succ m ih =>
    intro i hi hno
    have hlt : i < inp.length := by omega
    obtain ⟨h, hget⟩ : ∃ h, inp[i]? = some h := by
      rcases hx : inp[i]? with _ | h
      · rw [List.getElem?_eq_none_iff] at hx
        omega
      · exact ⟨h, rfl⟩
    rw [drop_cons_of_getElem? hget, runBuild]
    by_cases hk : keep h = true
    · by_cases hd : h.depth = 2
      · rw [step_spec_top hget hk hd]
        exact ih (i + 1) (by omega) (fun k hik => hno k (by omega))
      · have hchild : isChildB inp i = true := by
          rw [isChildB, isKeep_of_get hget, depthAt_of_get hget, hk]
          simp [hd]
        obtain ⟨p, hp⟩ := Option.isSome_iff_exists.mp (hno i (le_refl i) hchild)
        rw [step_spec_child hget hk hd hp]
        exact ih (i + 1) (by omega) (fun k hik => hno k (by omega))
    · rw [Bool.not_eq_true] at hk
      rw [step_spec_skip hk]
      rw [show specState inp i = specState inp (i + 1) from (specState_succ_skip hget hk).symm]
      exact ih (i + 1) (by omega) (fun k hik => hno k (by omega))

theorem runBuild_err (inp : List Node) :
    ∀ (m i k : Nat), i + m = inp.length → i ≤ k →
    isChildB inp k = true → parentOf inp k = none →
    (∀ k', i ≤ k' → k' < k → isChildB inp k' = true → (parentOf inp k').isSome = true) →
    runBuild (specState inp i) (inp.drop i) = .error () := by
  intro m
  induction m with
  | zero =>
    intro i k hi hik hc _ _
    have := isKeep_lt_length (isChildB_keep hc)
    omega
  | succ m ih =>
    intro i k hi hik hc hp hmin
    have hlt : i < inp.length := by omega
    obtain ⟨h, hget⟩ : ∃ h, inp[i]? = some h := by
      rcases hx : inp[i]? with _ | h
      · rw [List.getElem?_eq_none_iff] at hx
        omega
      · exact ⟨h, rfl⟩
    rw [drop_cons_of_getElem? hget, runBuild]
    rcases Nat.eq_or_lt_of_le hik with he | hlt2
    · subst he
      have hk : keep h = true := by
        rw [← isKeep_of_get hget]
        exact isChildB_keep hc
      have hd : h.depth ≠ 2 := by
        rw [← depthAt_of_get hget]
        exact isChildB_depth hc
      rw [step_spec_err hget hk hd hp]
    · by_cases hk : keep h = true
      · by_cases hd : h.depth = 2
        · rw [step_spec_top hget hk hd]
          exact ih (i + 1) k (by omega) (by omega) hc hp
            (fun k' h1 h2 => hmin k' (by omega) h2)
        · have hchild : isChildB inp i = true := by
            rw [isChildB, isKeep_of_get hget, depthAt_of_get hget, hk]
            simp [hd]
          obtain ⟨p, hp2⟩ :=
            Option.isSome_iff_exists.mp (hmin i (le_refl i) hlt2 hchild)
          rw [step_spec_child hget hk hd hp2]
          exact ih (i + 1) k (by omega) (by omega) hc hp
            (fun k' h1 h2 => hmin k' (by omega) h2)
      · rw [Bool.not_eq_true] at hk
        rw [step_spec_skip hk]
        rw [show specState inp i = specState inp (i + 1) from (specState_succ_skip hget hk).symm]
        exact ih (i + 1) k (by omega) (by omega) hc hp
          (fun k' h1 h2 => hmin k' (by omega) h2)

theorem buildTocState_ok (inp : List Node)
    (hno : ∀ k, isChildB inp k = true → (parentOf inp k).isSome = true) :
    buildTocState inp = .ok (specState inp inp.length) := by
  rw [buildTocState, ← specState_zero inp]
  have h := runBuild_ok inp inp.length 0 (by omega) (fun k _ hk => hno k hk)
  rw [List.drop_zero] at h
  exact h

theorem buildTocState_err (inp : List Node) (k : Nat)
    (hc : isChildB inp k = true) (hp : parentOf inp k = none) :
    buildTocState inp = .error () := by
  classical
  have hex : ∃ n, isChildB inp n = true ∧ parentOf inp n = none := ⟨k, hc, hp⟩
  have hspec := Nat.find_spec hex
  have hmin := fun m (hm : m < Nat.find hex) => Nat.find_min hex hm
  rw [buildTocState, ← specState_zero inp]
  have h := runBuild_err inp inp.length 0 (Nat.find hex) (by omega)
    (Nat.zero_le _) hspec.1 hspec.2
    (fun k' _ hk' hck' => by
      rw [Option.isSome_iff_ne_none]
      intro hnone
      exact hmin k' hk' ⟨hck', hnone⟩)
  rw [List.drop_zero] at h
  exact h

theorem buildTocState_ok_inv {inp : List Node} {st : BuildState}
    (h : buildTocState inp = .ok st) : st = specState inp inp.length := by
  classical
  by_cases hex : ∃ n, isChildB inp n = true ∧ parentOf inp n = none
  · obtain ⟨n, hc, hp⟩ := hex
    rw [buildTocState_err inp n hc hp] at h
    cases h
  · push_neg at hex
    have hno : ∀ k, isChildB inp k = true → (parentOf inp k).isSome = true := by
      intro k hk
      rw [Option.isSome_iff_ne_none]
      exact hex k hk
    rw [buildTocState_ok inp hno] at h
    injection h with h
    exact h.symm

theorem specNodes_getElem?_hi {inp : List Node} {i j : Nat} {n : Node}
    (hj : inp.length ≤ j) (hn : (specNodes inp i)[j]? = some n) :
    ∃ q, q < i ∧ isKeep inp q = true ∧ j = cloneId inp q ∧ n = cloneAt inp i q := by
  rw [specNodes, List.getElem?_append_right hj, List.getElem?_map] at hn
  rcases hq : (keepPos inp i)[j - inp.length]? with _ | q
  · rw [hq] at hn
    cases hn
  · rw [hq] at hn
    obtain ⟨h1, h2, h3⟩ := keepPos_getElem?_inv hq
    injection hn with hn
    exact ⟨q, h1, h2, by rw [cloneId]; omega, hn.symm⟩

theorem childIds_mem {inp : List Node} {i j c : Nat} (hc : c ∈ childIds inp i j) :
    ∃ k, k < i ∧ attaches inp k j = true ∧ c = cloneId inp k := by
  rw [childIds] at hc
  obtain ⟨k, hk, rfl⟩ := List.mem_map.mp hc
  rw [List.mem_filter, List.mem_range] at hk
  exact ⟨k, hk.1, hk.2, rfl⟩

theorem cloneAt_subs {inp : List Node} {i q : Nat} (hq : isKeep inp q = true) :
    (cloneAt inp i q).subs = childIds inp i q := by
  obtain ⟨g, hg, _⟩ := isKeep_get hq
  rw [cloneAt, hg]

theorem cloneAt_text {inp : List Node} {i q : Nat} (hq : isKeep inp q = true) :
    (cloneAt inp i q).text ≠ sentinel := by
  obtain ⟨g, hg, hkg⟩ := isKeep_get hq
  rw [cloneAt, hg]
  rw [keep, bne_iff_ne] at hkg
  exact hkg

theorem attaches_keep {inp : List Node} {k j : Nat} (h : attaches inp k j = true) :
    isKeep inp k = true :=
  isChildB_keep (Bool.and_eq_true _ _ |>.mp h).1

theorem attaches_parent {inp : List Node} {k j : Nat} (h : attaches inp k j = true) :
    parentOf inp k = some j :=
  of_decide_eq_true (Bool.and_eq_true _ _ |>.mp h).2

theorem count_childIds {inp : List Node} {j : Nat} (hj : isKeep inp j = true) :
    ∀ i q, (childIds inp i q).count (cloneId inp j) =
      if j < i ∧ attaches inp j q = true then 1 else 0 := by
  intro i
  induction i with
  | zero =>
    intro q
    rw [childIds]
    simp
  | succ i ih =>
    intro q
    rw [childIds_succ, List.count_append, ih q]
    by_cases hji : j = i
    · subst hji
      by_cases ha : attaches inp j q = true
      · simp [ha, Nat.lt_succ_self, lt_self_iff_false, List.count_singleton_self]
      · rw [Bool.not_eq_true] at ha
        simp [ha, lt_self_iff_false]
    · have hsecond :
          (if attaches inp i q = true then [cloneId inp i] else []).count (cloneId inp j) = 0 := by
        by_cases ha : attaches inp i q = true
        · have hki := attaches_keep ha
          have hne : cloneId inp j ≠ cloneId inp i := fun he => hji (cloneId_inj hj hki he)
          simp [ha, List.count_singleton, hne]
        · rw [Bool.not_eq_true] at ha
          simp [ha]
      rw [hsecond]
      have hiff : (j < i + 1 ∧ attaches inp j q = true) ↔ (j < i ∧ attaches inp j q = true) := by
        constructor
        · rintro ⟨h1, h2⟩
          exact ⟨by omega, h2⟩
        · rintro ⟨h1, h2⟩
          exact ⟨by omega, h2⟩
      rw [if_congr hiff rfl rfl]
      omega

theorem sum_indicator_eq_count (p : Nat) : ∀ (l : List Nat),
    (l.map (fun q => if q = p then 1 else 0)).sum = l.count p := by
  intro l
  induction l with
  | nil => rfl
  | cons x xs ih =>
    rw [List.map_cons, List.sum_cons, ih, List.count_cons]
    by_cases h : x = p
    · subst h
      simp only [if_pos rfl, beq_self_eq_true, if_true]
      omega
    · have hbe : (x == p) = false := by
        rw [beq_eq_false_iff_ne]
        exact h
      simp only [if_neg h, hbe, Bool.false_eq_true, if_false]
      omega

theorem validB_no_orphan {inp : List Node} (hv : validB inp = true) :
    ∀ k, isChildB inp k = true → (parentOf inp k).isSome = true := by
  intro k hk
  have hkl := isKeep_lt_length (isChildB_keep hk)
  rw [validB, List.all_eq_true] at hv
  have h := hv k (List.mem_range.mpr hkl)
  rw [isChildB_keep hk, hk] at h
  simp at h
  exact h.2

theorem validB_depth {inp : List Node} (hv : validB inp = true) :
    ∀ k, isKeep inp k = true → 2 ≤ depthAt inp k := by
  intro k hk
  have hkl := isKeep_lt_length hk
  rw [validB, List.all_eq_true] at hv
  have h := hv k (List.mem_range.mpr hkl)
  rw [hk] at h
  simp at h
  exact h.1

theorem resolve_clone {inp : List Node} {j : Nat}
    (hj : isKeep inp j = true) (hjl : j < inp.length) (f : Nat) :
    resolveNode (specNodes inp inp.length) (f + 1) (cloneId inp j) =
      .mk (nodeAt inp j).depth (nodeAt inp j).text (nodeAt inp j).slug
        ((childIds inp inp.length j).map (resolveNode (specNodes inp inp.length) f)) := by
  obtain ⟨g, hg, _⟩ := isKeep_get hj
  rw [resolveNode, specNodes_getElem?_clone hj hjl, cloneAt, hg, nodeAt, hg]
  rfl

theorem resolve_sentinel_free (inp : List Node) :
    ∀ (fuel c : Nat), inp.length ≤ c →
      sentinel ∉ textsOf (resolveNode (specNodes inp inp.length) fuel c) := by
  intro fuel
  induction fuel with
  | zero =>
    intro c _
    rw [resolveNode, textsOf_mk]
    simp [sentinel]
  | succ fuel ih =>
    intro c hc
    rw [resolveNode]
    rcases hn : (specNodes inp inp.length)[c]? with _ | n
    · rw [textsOf_mk]
      simp [sentinel]
    · obtain ⟨q, hq1, hq2, hq3, rfl⟩ := specNodes_getElem?_hi hc hn
      rw [textsOf_mk]
      intro hmem
      rcases List.mem_cons.mp hmem with he | he
      · exact cloneAt_text hq2 he.symm
      · rw [List.mem_flatten] at he
        obtain ⟨l, hl, hsl⟩ := he
        rw [List.map_map, List.mem_map] at hl
        obtain ⟨c', hc', rfl⟩ := hl
        rw [cloneAt_subs hq2] at hc'
        obtain ⟨k, _, _, rfl⟩ := childIds_mem hc'
        exact ih (cloneId inp k) (by rw [cloneId]; omega) hsl

/-! ### The claims -/

/-- C5: `buildToc` on the three-heading example of the spec returns the
nested two-section tree, exactly as stated. -/
theorem c5_build_example :
    buildToc [⟨2, "A", "a", []⟩, ⟨3, "A1", "a1", []⟩, ⟨2, "B", "b", []⟩] =
      .ok [.mk 2 "A" "a" [.mk 3 "A1" "a1" []], .mk 2 "B" "b" []] := rfl

/-- C7: round-trip of the persisted preference store — `Set(v)` followed by
a fresh `Initialize` of the same slot yields `v`, for `v` in
`{true, false}` and any supplied default. -/
theorem c7_roundtrip :
    ∀ (v : Bool) (dflt : Option Bool), initStore (setStore v).2 dflt = some v := by
  decide

/-- C8: `Initialize` (total, hence never throwing) yields the supplied
default when the slot is absent, for every default in
`{some true, some false, none}`, and when the slot holds an unparseable
string. -/
theorem c8_default_fallback :
    (∀ dflt : Option Bool, initStore none dflt = dflt) ∧
    (∀ (s : String) (dflt : Option Bool), parseBool s = none →
      initStore (some s) dflt = dflt) := by
  refine ⟨fun _ => rfl, fun s dflt h => ?_⟩
  simp [initStore, h]

theorem c8_default_fallback_witness :
    initStore none (some true) = some true ∧ initStore (some "garbage") none = none :=
  ⟨c8_default_fallback.1 (some true), c8_default_fallback.2 "garbage" none rfl⟩

/-- C10: `toggleDarkMode` maps `true ↦ false`, `false ↦ true`, and the
unset state `undefined ↦ true`, and every toggle result is a boolean
(never the unset state). -/
theorem c10_toggle :
    toggleDarkMode (some true) = some false ∧
    toggleDarkMode (some false) = some true ∧
    toggleDarkMode none = some true ∧
    ∀ v : Option Bool, (toggleDarkMode v).isSome = true := by
  decide

/-- C2: on malformed input — some non-sentinel heading of depth ≠ 2 whose
`depth - 1` parent was never recorded before it — `buildToc` surfaces a
construction error (the thrown `TypeError` aborts the pass); it never
silently returns a tree.  (An orphan heading whose text is the sentinel is
instead skipped by the sentinel guard; see the sentinel claim.) -/
theorem c2_malformed_error (inp : List Node)
    (hmal : ∃ (k : Nat) (h : Node), inp[k]? = some h ∧ keep h = true ∧
      h.depth ≠ 2 ∧ parentOf inp k = none) :
    buildToc inp = .error () := by
  obtain ⟨k, h, hget, hk, hd, hp⟩ := hmal
  have hc : isChildB inp k = true := by
    rw [isChildB, isKeep_of_get hget, depthAt_of_get hget, hk]
    simp [hd]
  rw [buildToc, buildTocState_err inp k hc hp]

theorem c2_malformed_error_witness :
    buildToc [⟨3, "X", "x", []⟩] = .error () :=
  c2_malformed_error [⟨3, "X", "x", []⟩]
    ⟨0, ⟨3, "X", "x", []⟩, rfl, by decide, by decide, rfl⟩

/-- C9 (corrected): the claim as stated is false — an input containing a
heading of depth 1 whose text is the sentinel does not make `buildToc`
throw: the sentinel guard skips the heading before the parent lookup, and
the build succeeds. -/
theorem c9_counterexample :
    buildToc [⟨1, sentinel, "toc", []⟩] = .ok [] ∧
      buildToc [⟨1, sentinel, "toc", []⟩] ≠ .error () := by
  refine ⟨rfl, ?_⟩
  intro h
  cases h

/-- C9 (amended): `buildToc` fails with a runtime type error on every
input containing a non-sentinel heading of depth ≤ 1: such a heading is
neither skipped nor of depth 2, and its `depth - 1` parent lookup misses,
because no heading of smaller depth can ever complete an iteration. -/
theorem c9_shallow_heading_throws (inp : List Node) (k : Nat) (h : Node)
    (hget : inp[k]? = some h) (hk : keep h = true) (hd : h.depth ≤ 1) :
    buildToc inp = .error () := by
  have hmem : h ∈ inp := List.getElem?_mem hget
  have hfil : h ∈ inp.filter (fun g => keep g && decide (g.depth ≤ 1)) :=
    List.mem_filter.mpr ⟨hmem, by rw [hk, decide_eq_true hd]; rfl⟩
  set lows := (inp.filter (fun g => keep g && decide (g.depth ≤ 1))).map Node.depth with hlows
  have hdm : h.depth ∈ lows := List.mem_map_of_mem _ hfil
  obtain ⟨m, hm⟩ : ∃ m, minDepth lows = some m := by
    rcases hl : lows with _ | ⟨d, ds⟩
    · rw [hl] at hdm
      cases hdm
    · exact Option.isSome_iff_exists.mp (minDepth_isSome d ds)
  obtain ⟨hmmem, hmle⟩ := minDepth_spec lows m hm
  obtain ⟨g, hgf, hgd⟩ := List.mem_map.mp hmmem
  have hgm := List.mem_filter.mp hgf
  obtain ⟨hkg, hdg⟩ := Bool.and_eq_true _ _ |>.mp hgm.2
  obtain ⟨j, hj⟩ := List.mem_iff_getElem?.mp hgm.1
  have hkj : isKeep inp j = true := by rw [isKeep_of_get hj]; exact hkg
  have hdj : depthAt inp j = m := by rw [depthAt_of_get hj, hgd]
  have hdle : m ≤ 1 := by
    have := of_decide_eq_true hdg
    omega
  have hc : isChildB inp j = true := by
    rw [isChildB, hkj, hdj]
    simp
    omega
  have hp : parentOf inp j = none := by
    rcases hpp : parentOf inp j with _ | p
    · rfl
    · exfalso
      obtain ⟨hkp, hdp⟩ := lastAt_keep hpp
      obtain ⟨gp, hgp, hkgp⟩ := isKeep_get hkp
      have hdgp : gp.depth = m - 1 := by
        rw [← depthAt_of_get hgp, hdp, hdj]
      have hgpin : gp.depth ∈ lows := by
        apply List.mem_map_of_mem
        apply List.mem_filter.mpr
        refine ⟨List.getElem?_mem hgp, ?_⟩
        rw [hkgp, decide_eq_true (by omega : gp.depth ≤ 1)]
        rfl
      have := hmle gp.depth hgpin
      omega
  rw [buildToc, buildTocState_err inp j hc hp]

theorem c9_shallow_heading_throws_witness :
    buildToc [⟨1, "Intro", "intro", []⟩] = .error () :=
  c9_shallow_heading_throws [⟨1, "Intro", "intro", []⟩] 0 ⟨1, "Intro", "intro", []⟩
    rfl (by decide) (by decide)

/-- C6: `buildToc` does not mutate its input and returns a fresh tree: in
the final heap the input region is unchanged, and every node of the output
tree — the `toc` entries and everything reachable through `subheadings` —
is a freshly-allocated clone (heap index ≥ the number of input records),
never one of the input records. -/
theorem c6_frame (inp : List Node) (st : BuildState)
    (h : buildTocState inp = .ok st) :
    st.nodes.take inp.length = inp ∧
    (∀ c ∈ st.toc, inp.length ≤ c) ∧
    (∀ j n, inp.length ≤ j → st.nodes[j]? = some n → ∀ c ∈ n.subs, inp.length ≤ c) := by
  have hst := buildTocState_ok_inv h
  subst hst
  refine ⟨?_, ?_, ?_⟩
  · show (specNodes inp inp.length).take inp.length = inp
    rw [specNodes, List.take_left]
  · intro c hc
    have hc' : c ∈ specToc inp inp.length := hc
    rw [specToc] at hc'
    obtain ⟨j, _, rfl⟩ := List.mem_map.mp hc'
    rw [cloneId]
    omega
  · intro j n hj hn c hc
    obtain ⟨q, hq1, hq2, _, rfl⟩ := specNodes_getElem?_hi hj hn
    rw [cloneAt_subs hq2] at hc
    obtain ⟨k, _, _, rfl⟩ := childIds_mem hc
    rw [cloneId]
    omega

theorem filter_range_top (inp : List Node) :
    ∀ i, i ≤ inp.length →
      ((List.range i).filter (isTopB inp)).map (fun j => projT (nodeAt inp j)) =
        ((inp.take i).filter (fun h => keep h && decide (h.depth = 2))).map projT := by
  intro i
  induction i with
  | zero => simp
  | succ i ih =>
    intro hi
    obtain ⟨h, hget⟩ : ∃ h, inp[i]? = some h := by
      rcases hx : inp[i]? with _ | h
      · rw [List.getElem?_eq_none_iff] at hx
        omega
      · exact ⟨h, rfl⟩
    rw [List.range_succ, List.filter_append, List.map_append, ih (by omega)]
    rw [List.take_succ, hget, Option.toList_some, List.filter_append, List.map_append]
    congr 1
    have hb : isTopB inp i = (keep h && decide (h.depth = 2)) := by
      rw [isTopB, isKeep_of_get hget, depthAt_of_get hget]
    rw [List.filter_singleton, List.filter_singleton, hb]
    rcases Bool.eq_false_or_eq_true (keep h && decide (h.depth = 2)) with hc | hc
    · rw [hc]
      show [projT (nodeAt inp i)] = [projT h]
      rw [nodeAt, hget]
      rfl
    · rw [hc]
      rfl

/-- C3: a heading whose text equals the sentinel `"Table of Contents"`
never appears anywhere in `buildToc`'s output: no tree node at the top
level or nested in any subheadings sequence carries the sentinel text. -/
theorem c3_sentinel_not_in_output (inp : List Node) (ts : List Heading)
    (h : buildToc inp = .ok ts) :
    ∀ g ∈ ts, sentinel ∉ textsOf g := by
  rw [buildToc] at h
  rcases hst : buildTocState inp with e | st
  · rw [hst] at h
    cases h
  · rw [hst] at h
    have hspec := buildTocState_ok_inv hst
    subst hspec
    injection h with h
    subst h
    intro g hg
    have hg' : g ∈ (specToc inp inp.length).map
        (resolveNode (specNodes inp inp.length) (specNodes inp inp.length).length) := hg
    obtain ⟨c, hc, rfl⟩ := List.mem_map.mp hg'
    rw [specToc] at hc
    obtain ⟨j, _, rfl⟩ := List.mem_map.mp hc
    exact resolve_sentinel_free inp _ _ (by rw [cloneId]; omega)

theorem c3_sentinel_not_in_output_witness :
    sentinel ∉ textsOf (.mk 2 "A" "a" [.mk 3 "A1" "a1" []]) :=
  c3_sentinel_not_in_output [⟨2, "A", "a", []⟩, ⟨3, "A1", "a1", []⟩]
    [.mk 2 "A" "a" [.mk 3 "A1" "a1" []]] rfl _ (List.mem_singleton.mpr rfl)

/-- C4 (amended): under the amended validity premise — every non-sentinel
heading has depth ≥ 2 and every non-sentinel heading of depth > 2 has a
preceding non-sentinel heading of depth − 1 — `buildToc` succeeds and its
top level consists exactly of the non-sentinel depth-2 headings, once
each, in input order. -/
theorem c4_top_level (inp : List Node) (hv : validB inp = true) :
    ∃ ts, buildToc inp = .ok ts ∧
      ts.map headProj =
        (inp.filter (fun h => keep h && decide (h.depth = 2))).map projT := by
  have hok := buildTocState_ok inp (validB_no_orphan hv)
  rw [buildToc, hok]
  refine ⟨_, rfl, ?_⟩
  show ((specToc inp inp.length).map
      (resolveNode (specNodes inp inp.length) (specNodes inp inp.length).length)).map headProj = _
  rw [specToc, List.map_map, List.map_map]
  have hcong : List.map
      ((headProj ∘ resolveNode (specNodes inp inp.length) (specNodes inp inp.length).length)
        ∘ cloneId inp)
      ((List.range inp.length).filter (isTopB inp)) =
      List.map (fun j => projT (nodeAt inp j)) ((List.range inp.length).filter (isTopB inp)) := by
    apply List.map_congr_left
    intro j hj
    rw [List.mem_filter, List.mem_range] at hj
    obtain ⟨hjl, htop⟩ := hj
    have hkj : isKeep inp j = true := (Bool.and_eq_true _ _ |>.mp htop).1
    have hflt : cloneId inp j < (specNodes inp inp.length).length := by
      rw [specNodes_length, cloneId]
      have := keepCount_lt hkj hjl
      omega
    obtain ⟨f, hf⟩ : ∃ f, (specNodes inp inp.length).length = f + 1 :=
      ⟨(specNodes inp inp.length).length - 1, by omega⟩
    show headProj (resolveNode (specNodes inp inp.length)
      (specNodes inp inp.length).length (cloneId inp j)) = projT (nodeAt inp j)
    rw [hf, resolve_clone hkj hjl]
    rfl
  rw [hcong, filter_range_top inp inp.length (le_refl _), List.take_length]

theorem c4_top_level_witness :
    ∃ ts, buildToc [⟨2, "A", "a", []⟩, ⟨3, "A1", "a1", []⟩, ⟨2, "B", "b", []⟩] = .ok ts ∧
      ts.map headProj =
        ([⟨2, "A", "a", []⟩, ⟨3, "A1", "a1", []⟩, ⟨2, "B", "b", []⟩].filter
          (fun h => keep h && decide (h.depth = 2))).map projT :=
  c4_top_level [⟨2, "A", "a", []⟩, ⟨3, "A1", "a1", []⟩, ⟨2, "B", "b", []⟩] (by decide)

/-- C4 (counterexample): the claim as stated is false.  The input
`[{2, sentinel, "t"}, {3, "X", "x"}, {2, "A", "a"}]` is a valid monotonic
sequence in the claim's sense — its only heading of depth > 2 is preceded
by a heading of depth 2 — yet `buildToc` throws: the preceding depth-2
heading is the sentinel, which is skipped and never recorded, so the
lookup for `"X"` misses and the non-sentinel depth-2 heading `"A"` appears
in no output at all. -/
theorem c4_counterexample :
    ClaimValid [⟨2, "Table of Contents", "t", []⟩, ⟨3, "X", "x", []⟩, ⟨2, "A", "a", []⟩] ∧
    buildToc [⟨2, "Table of Contents", "t", []⟩, ⟨3, "X", "x", []⟩, ⟨2, "A", "a", []⟩]
      = .error () := by
  constructor
  · intro k h hget hd
    rcases k with _ | _ | _ | n
    · rw [List.getElem?_cons_zero] at hget
      injection hget with he
      rw [← he] at hd
      exact absurd hd (by decide)
    · refine ⟨0, ⟨2, "Table of Contents", "t", []⟩, by omega, rfl, ?_⟩
      rw [List.getElem?_cons_succ, List.getElem?_cons_zero] at hget
      injection hget with he
      rw [← he]
      decide
    · rw [List.getElem?_cons_succ, List.getElem?_cons_succ,
        List.getElem?_cons_zero] at hget
      injection hget with he
      rw [← he] at hd
      exact absurd hd (by decide)
    · simp at hget
  · rfl

theorem c6_frame_witness :
    (⟨[⟨2, "A", "a", []⟩, ⟨3, "A1", "a1", []⟩, ⟨2, "A", "a", [3]⟩, ⟨3, "A1", "a1", []⟩],
        [2], [(3, 3), (2, 2)]⟩ : BuildState).nodes.take 2 =
      [⟨2, "A", "a", []⟩, ⟨3, "A1", "a1", []⟩] :=
  (c6_frame [⟨2, "A", "a", []⟩, ⟨3, "A1", "a1", []⟩] _ rfl).1

/-- C1 (amended): under the amended validity premise — every non-sentinel
heading has depth ≥ 2 and every non-sentinel heading of depth > 2 has a
preceding non-sentinel heading of depth − 1 — the build succeeds and every
non-sentinel heading of depth > 2 appears in exactly one subheadings
sequence of the output: that of the nearest preceding non-sentinel heading
of depth − 1 (`parentOf` is by definition the nearest such position). -/
theorem c1_nesting (inp : List Node) (hv : validB inp = true) :
    ∃ st, buildTocState inp = .ok st ∧
      ∀ (j : Nat) (h : Node), inp[j]? = some h → keep h = true → 2 < h.depth →
        ∃ p, parentOf inp j = some p ∧
          subsCountFrom st inp.length (cloneId inp j) = 1 ∧
          ∃ pc, st.nodes[cloneId inp p]? = some pc ∧ cloneId inp j ∈ pc.subs := by
  refine ⟨_, buildTocState_ok inp (validB_no_orphan hv), ?_⟩
  intro j h hget hk hd
  have hkeep : isKeep inp j = true := by
    rw [isKeep_of_get hget, hk]
  have hchild : isChildB inp j = true := by
    rw [isChildB, hkeep, depthAt_of_get hget]
    simp
    omega
  obtain ⟨p, hp⟩ := Option.isSome_iff_exists.mp (validB_no_orphan hv j hchild)
  have hpj : p < j := lastAt_lt hp
  obtain ⟨hkp, _⟩ := lastAt_keep hp
  have hjl : j < inp.length := isKeep_lt_length hkeep
  have hattach : attaches inp j p = true := by
    rw [attaches, hchild, hp]
    simp
  refine ⟨p, hp, ?_, ?_⟩
  · show subsCountFrom (specState inp inp.length) inp.length (cloneId inp j) = 1
    rw [subsCountFrom]
    show (((specNodes inp inp.length).drop inp.length).map
      (fun n => n.subs.count (cloneId inp j))).sum = 1
    rw [specNodes, List.drop_left, List.map_map]
    have hcong : List.map
        ((fun n => n.subs.count (cloneId inp j)) ∘ cloneAt inp inp.length)
        (keepPos inp inp.length) =
        List.map (fun q => if q = p then 1 else 0) (keepPos inp inp.length) := by
      apply List.map_congr_left
      intro q hq
      obtain ⟨hql, hkq⟩ := keepPos_mem.mp hq
      show (cloneAt inp inp.length q).subs.count (cloneId inp j) = _
      rw [cloneAt_subs hkq, count_childIds hkeep]
      by_cases hqp : q = p
      · subst hqp
        rw [if_pos ⟨hjl, hattach⟩, if_pos rfl]
      · rw [if_neg ?_, if_neg hqp]
        rintro ⟨_, hat⟩
        exact hqp (Option.some_inj.mp ((attaches_parent hat).symm.trans hp))
    rw [hcong, sum_indicator_eq_count]
    exact List.count_eq_one_of_mem (keepPos_nodup _ _) (keepPos_mem.mpr ⟨by omega, hkp⟩)
  · refine ⟨cloneAt inp inp.length p, ?_, ?_⟩
    · show (specNodes inp inp.length)[cloneId inp p]? = _
      exact specNodes_getElem?_clone hkp (by omega)
    · rw [cloneAt_subs hkp, childIds]
      exact List.mem_map.mpr ⟨j, List.mem_filter.mpr ⟨List.mem_range.mpr hjl, hattach⟩, rfl⟩

theorem c1_nesting_witness :
    ∃ st, buildTocState [⟨2, "A", "a", []⟩, ⟨3, "A1", "a1", []⟩] = .ok st ∧
      ∃ p, parentOf [⟨2, "A", "a", []⟩, ⟨3, "A1", "a1", []⟩] 1 = some p ∧
        subsCountFrom st 2 (cloneId [⟨2, "A", "a", []⟩, ⟨3, "A1", "a1", []⟩] 1) = 1 ∧
        ∃ pc, st.nodes[cloneId [⟨2, "A", "a", []⟩, ⟨3, "A1", "a1", []⟩] p]? = some pc ∧
          cloneId [⟨2, "A", "a", []⟩, ⟨3, "A1", "a1", []⟩] 1 ∈ pc.subs := by
  obtain ⟨st, h1, h2⟩ := c1_nesting [⟨2, "A", "a", []⟩, ⟨3, "A1", "a1", []⟩] (by decide)
  exact ⟨st, h1, h2 1 ⟨3, "A1", "a1", []⟩ rfl (by decide) (by decide)⟩

/-- C1 (counterexample): the claim as stated is false.  The input
`[{2, "A", "a"}, {3, sentinel, "t"}]` is a valid monotonic sequence in
the claim's sense — its only heading of depth > 2 is preceded by a
heading of depth 2 — yet its depth-3 heading (titled with the sentinel) is
skipped by the sentinel guard and so appears in no subheadings sequence of
the output at all, instead of in exactly one. -/
theorem c1_counterexample :
    ClaimValid [⟨2, "A", "a", []⟩, ⟨3, "Table of Contents", "t", []⟩] ∧
    buildTocState [⟨2, "A", "a", []⟩, ⟨3, "Table of Contents", "t", []⟩] =
      .ok ⟨[⟨2, "A", "a", []⟩, ⟨3, "Table of Contents", "t", []⟩, ⟨2, "A", "a", []⟩],
        [2], [(2, 2)]⟩ ∧
    occursInSubs
      ⟨[⟨2, "A", "a", []⟩, ⟨3, "Table of Contents", "t", []⟩, ⟨2, "A", "a", []⟩],
        [2], [(2, 2)]⟩
      ⟨3, "Table of Contents", "t", []⟩ = false := by
  refine ⟨?_, rfl, rfl⟩
  intro k h hget hd
  rcases k with _ | _ | n
  · rw [List.getElem?_cons_zero] at hget
    injection hget with he
    rw [← he] at hd
    exact absurd hd (by decide)
  · refine ⟨0, ⟨2, "A", "a", []⟩, by omega, rfl, ?_⟩
    rw [List.getElem?_cons_succ, List.getElem?_cons_zero] at hget
    injection hget with he
    rw [← he]
    decide
  · simp at hget

end PersonalWebsite
